import Mathlib

/-!
Shallow embedding of the `parser_wasm` compiler frontend: `include_logic.rs`
(path normalization, file stack, includes graph), `parser_logic.rs` (comment
preprocessor) and `lib.rs` (driver loop and version gates), together with
theorems checking the natural-language specification of the crate.

Rust strings are modelled as Lean `String` (a structure holding a
`List Char`); Rust `Vec`/`HashSet`/`HashMap` become Lean lists, `Finset`s and
association lists.  Machine integers are `Nat`.
-/

namespace ParserWasm

/-- One iteration of the `for part in path.split('/')` loop of
`normalize_path` (include_logic.rs:13-21): `.` and empty segments are
skipped, `..` pops the last retained component (`Vec::pop`, a no-op on an
empty vector), anything else is pushed. -/
def normStep (comps : List (List Char)) (part : List Char) : List (List Char) :=
  if part = ['.'] ∨ part = [] then comps
  else if part = ['.', '.'] then comps.dropLast
  else comps ++ [part]

/-- `normalize_path` (include_logic.rs:11-23): split on `/`, fold `normStep`
starting from `vec![""]` (the would-be `/` root marker), and re-join the
retained components with `/`. -/
def normalize_path (path : String) : String :=
  ⟨[('/' : Char)].intercalate ((path.data.splitOn '/').foldl normStep [[]])⟩

/-- A retained path segment: nonempty, not `.`, not `..`, and containing no
separator.  `normStep` only ever pushes such segments. -/
def CleanSeg (l : List Char) : Prop :=
  l ≠ [] ∧ l ≠ ['.'] ∧ l ≠ ['.', '.'] ∧ ('/' : Char) ∉ l

/-- All segments of a list are clean. -/
def CleanSegs (segs : List (List Char)) : Prop := ∀ l ∈ segs, CleanSeg l

theorem mem_splitOnP_not_sat {α : Type} (p : α → Bool) :
    ∀ (xs : List α), ∀ l ∈ xs.splitOnP p, ∀ a ∈ l, ¬ p a := by
  intro xs
  induction xs with
  | nil =>
    intro l hl a ha
    simp [List.splitOnP_nil] at hl
    subst hl
    simp at ha
  | cons x xs ih =>
    intro l hl a ha
    rw [List.splitOnP_cons] at hl
    by_cases hx : p x
    · rw [if_pos hx] at hl
      rcases List.mem_cons.mp hl with h | h
      · subst h; simp at ha
      · exact ih l h a ha
    · rw [if_neg hx] at hl
      rcases hsplit : xs.splitOnP p with _ | ⟨h₀, t⟩
      · exact absurd hsplit (List.splitOnP_ne_nil p xs)
      · rw [hsplit] at hl
        simp only [List.modifyHead] at hl
        rcases List.mem_cons.mp hl with h | h
        · subst h
          rcases List.mem_cons.mp ha with h' | h'
          · subst h'; simp [hx]
          · exact ih h₀ (hsplit ▸ List.mem_cons_self _ _) a h'
        · exact ih l (hsplit ▸ List.mem_cons_of_mem _ h) a ha

/-- Pieces produced by `splitOn` never contain the separator. -/
theorem mem_splitOn_sep_not_mem {α : Type} [DecidableEq α] (x : α)
    (xs : List α) : ∀ l ∈ xs.splitOn x, x ∉ l := by
  intro l hl hx
  have := mem_splitOnP_not_sat (· == x) xs l hl x hx
  simp at this

/-- Shape invariant of the accumulator of `normalize_path`'s fold: the root
marker `""` is at the front until a `..` pops it, and everything behind it
is a clean segment. -/
def NormAcc (acc : List (List Char)) : Prop :=
  ∃ segs, (acc = [] :: segs ∨ acc = segs) ∧ CleanSegs segs

theorem normStep_preserves (acc : List (List Char)) (part : List Char)
    (hp : ('/' : Char) ∉ part) (h : NormAcc acc) : NormAcc (normStep acc part) := by
  obtain ⟨segs, hacc, hclean⟩ := h
  unfold normStep
  by_cases h1 : part = ['.'] ∨ part = []
  · rw [if_pos h1]; exact ⟨segs, hacc, hclean⟩
  · rw [if_neg h1]
    by_cases h2 : part = ['.', '.']
    · rw [if_pos h2]
      rcases hacc with hacc | hacc <;> subst hacc
      · cases segs with
        | nil => exact ⟨[], Or.inr (by simp), by intro l hl; simp at hl⟩
        | cons s ss =>
          refine ⟨(s :: ss).dropLast, Or.inl ?_, ?_⟩
          · simp [List.dropLast]
          · intro l hl; exact hclean l (List.dropLast_subset _ hl)
      · exact ⟨acc.dropLast, Or.inr rfl,
          fun l hl => hclean l (List.dropLast_subset _ hl)⟩
    · rw [if_neg h2]
      push_neg at h1
      have hcp : CleanSeg part := ⟨h1.2, h1.1, h2, hp⟩
      rcases hacc with hacc | hacc <;> subst hacc
      · refine ⟨segs ++ [part], Or.inl (by simp), ?_⟩
        · intro l hl
          rcases List.mem_append.mp hl with h | h
          · exact hclean l h
          · simp at h; subst h; exact hcp
      · refine ⟨acc ++ [part], Or.inr rfl, ?_⟩
        · intro l hl
          rcases List.mem_append.mp hl with h | h
          · exact hclean l h
          · simp at h; subst h; exact hcp

theorem foldl_normStep_acc (parts : List (List Char))
    (hp : ∀ l ∈ parts, ('/' : Char) ∉ l) :
    ∀ acc, NormAcc acc → NormAcc (parts.foldl normStep acc) := by
  induction parts with
  | nil => intro acc h; exact h
  | cons x xs ih =>
    intro acc h
    exact ih (fun l hl => hp l (List.mem_cons_of_mem _ hl)) _
      (normStep_preserves acc x (hp x (List.mem_cons_self _ _)) h)

/-- On a list of clean segments the fold only pushes. -/
theorem foldl_normStep_clean (segs : List (List Char)) (hc : CleanSegs segs) :
    ∀ acc, segs.foldl normStep acc = acc ++ segs := by
  induction segs with
  | nil => intro acc; simp
  | cons s ss ih =>
    intro acc
    have hs := hc s (List.mem_cons_self _ _)
    have hstep : normStep acc s = acc ++ [s] := by
      unfold normStep
      rw [if_neg (by push_neg; exact ⟨hs.2.1, hs.1⟩), if_neg hs.2.2.1]
    rw [List.foldl_cons, hstep,
      ih (fun l hl => hc l (List.mem_cons_of_mem _ hl)) _]
    simp

/-- A rooted, clean path string is a fixed point of `normalize_path`. -/
theorem normalize_path_rooted_fixed (segs : List (List Char))
    (hc : CleanSegs segs) :
    normalize_path ⟨[('/' : Char)].intercalate ([] :: segs)⟩ =
      ⟨[('/' : Char)].intercalate ([] :: segs)⟩ := by
  unfold normalize_path
  have hsplit : (([('/' : Char)].intercalate ([] :: segs)).splitOn '/') =
      [] :: segs := by
    apply List.splitOn_intercalate
    · intro l hl
      rcases List.mem_cons.mp hl with h | h
      · subst h; simp
      · exact (hc l h).2.2.2
    · simp
  show (⟨[('/' : Char)].intercalate
      (((⟨[('/' : Char)].intercalate ([] :: segs)⟩ :
        String).data.splitOn '/').foldl normStep [[]])⟩ : String) = _
  rw [show (⟨[('/' : Char)].intercalate ([] :: segs)⟩ : String).data =
      [('/' : Char)].intercalate ([] :: segs) from rfl, hsplit]
  have : (([] : List Char) :: segs).foldl normStep [[]] = [] :: segs := by
    rw [List.foldl_cons]
    have h0 : normStep [[]] [] = [[]] := by unfold normStep; simp
    rw [h0, foldl_normStep_clean segs hc]
    simp
  rw [this]

/-- Normalizing an unrooted clean path string re-roots it. -/
theorem normalize_path_unrooted (segs : List (List Char)) (hc : CleanSegs segs)
    (hne : segs ≠ []) :
    normalize_path ⟨[('/' : Char)].intercalate segs⟩ =
      ⟨[('/' : Char)].intercalate ([] :: segs)⟩ := by
  unfold normalize_path
  have hsplit : (([('/' : Char)].intercalate segs).splitOn '/') = segs :=
    List.splitOn_intercalate segs '/' (fun l hl => (hc l hl).2.2.2) hne
  show (⟨[('/' : Char)].intercalate
      ((([('/' : Char)].intercalate segs).splitOn '/').foldl
        normStep [[]])⟩ : String) = _
  rw [hsplit, foldl_normStep_clean segs hc]
  rfl

/-- After one application `normalize_path` stabilizes up to re-rooting:
its second iterate is a fixed point. -/
theorem normalize_path_iterate_fixed (p : String) :
    normalize_path (normalize_path (normalize_path p)) =
      normalize_path (normalize_path p) := by
  have hp : ∀ l ∈ p.data.splitOn '/', ('/' : Char) ∉ l :=
    mem_splitOn_sep_not_mem '/' p.data
  have hacc : NormAcc ((p.data.splitOn '/').foldl normStep [[]]) :=
    foldl_normStep_acc _ hp [[]] ⟨[], Or.inl rfl, fun l hl => by simp at hl⟩
  obtain ⟨segs, hcomp | hcomp, hclean⟩ := hacc
  · have h1 : normalize_path p = ⟨[('/' : Char)].intercalate ([] :: segs)⟩ := by
      unfold normalize_path
      rw [hcomp]
    rw [h1, normalize_path_rooted_fixed segs hclean,
      normalize_path_rooted_fixed segs hclean]
  · have h1 : normalize_path p = ⟨[('/' : Char)].intercalate segs⟩ := by
      unfold normalize_path
      rw [hcomp]
    cases segs with
    | nil =>
      rw [h1]
      have hnil : normalize_path ⟨[('/' : Char)].intercalate []⟩ =
          ⟨[('/' : Char)].intercalate []⟩ := by decide
      rw [hnil, hnil]
    | cons s ss =>
      rw [h1, normalize_path_unrooted _ hclean (by simp),
        normalize_path_rooted_fixed _ hclean]

/-! ### Reports and version gates (lib.rs) -/

/-- Version triple `(major, minor, patch)` (`program_structure::ast::Version`). -/
abbrev Version := Nat × Nat × Nat

/-- The report codes this crate produces (`program_structure::error_code`). -/
inductive ReportCode where
  | FileOs
  | IncludeNotFound
  | NoMainFoundInProject
  | MultipleMain
  | CustomGatesPragmaError
  | CustomGatesVersionError
  | UnclosedComment
  | IllegalExpression
  deriving DecidableEq, Repr

/-- Diagnostics, one constructor per report producer used by the crate. -/
inductive Report where
  /-- `produce_report_with_message(code, msg)` -/
  | withMessage (code : ReportCode) (msg : String)
  /-- `produce_report(code, range, file_id)` -/
  | atLocation (code : ReportCode) (start stop : Nat) (file_id : Nat)
  /-- `produce_compiler_version_report(path, required, actual)` -/
  | compilerVersion (file_path : String) (required actual : Version)
  /-- `produce_version_warning_report(path, actual)` -/
  | versionWarning (file_path : String) (actual : Version)
  /-- `Report::error(msg, code)` -/
  | errorMsg (msg : String) (code : ReportCode)
  /-- the `MultipleMain` report with its primary and secondary locations -/
  | multipleMain (locations : List ((Nat × Nat) × Nat))
  deriving DecidableEq, Repr

/-- `usize::from_str` on a decimal digit string (sign and overflow cases
are irrelevant to the version strings handled here). -/
def parseUsize (l : List Char) : Option Nat :=
  if l ≠ [] ∧ l.all Char.isDigit then
    some (l.foldl (fun n c => n * 10 + (c.toNat - 48)) 0)
  else none

/-- Rust `str::splitn(3, sep)`: at most three pieces, the last keeping any
further separators. -/
def splitn3 (s : List Char) (sep : Char) : List (List Char) :=
  let parts := s.splitOn sep
  if parts.length ≤ 3 then parts
  else parts.take 2 ++ [[sep].intercalate (parts.drop 2)]

/-- `parse_number_version` (lib.rs:214-220): missing or unparsable
components default to 0. -/
def parse_number_version (version : String) : Version :=
  let parts := splitn3 version.data '.'
  (((parts.get? 0).bind parseUsize).getD 0,
   ((parts.get? 1).bind parseUsize).getD 0,
   ((parts.get? 2).bind parseUsize).getD 0)

/-- `check_number_version` (lib.rs:222-241). -/
def check_number_version (file_path : String) (version_file : Option Version)
    (version_compiler : Version) : Except Report (List Report) :=
  match version_file with
  | some required_version =>
      if required_version.1 = version_compiler.1 ∧
          (required_version.2.1 < version_compiler.2.1 ∨
            (required_version.2.1 = version_compiler.2.1 ∧
              required_version.2.2 ≤ version_compiler.2.2)) then
        .ok []
      else
        .error (.compilerVersion file_path required_version version_compiler)
  | none => .ok [.versionWarning file_path version_compiler]

/-- Rendering of a `Version` by `{:?}` in the custom-gates error message. -/
def versionRepr (v : Version) : String :=
  "(" ++ toString v.1 ++ ", " ++ toString v.2.1 ++ ", " ++ toString v.2.2 ++ ")"

/-- `check_custom_gates_version` (lib.rs:243-270). -/
def check_custom_gates_version (file_path : String)
    (version_file : Option Version) (version_compiler : Version) :
    Except Report Unit :=
  let custom_gates_version : Version := (2, 0, 6)
  let version_to_check := version_file.getD version_compiler
  if version_to_check.1 < custom_gates_version.1 ∨
      (version_to_check.1 = custom_gates_version.1 ∧
        version_to_check.2.1 < custom_gates_version.2.1) ∨
      (version_to_check.1 = custom_gates_version.1 ∧
        version_to_check.2.1 = custom_gates_version.2.1 ∧
        version_to_check.2.2 < custom_gates_version.2.2) then
    .error (.errorMsg
      ("File " ++ file_path ++ " requires at least version " ++
        versionRepr custom_gates_version ++
        " to use custom templates (currently " ++
        versionRepr version_to_check ++ ")")
      .CustomGatesVersionError)
  else .ok ()

/-- Modelled from the spec: `Version: triple (major, minor, patch), totally
ordered lexicographically by component` — the ordering claim C2 asserts
`check_number_version` decides. -/
def specVersionLe (d a : Version) : Prop :=
  d.1 < a.1 ∨ (d.1 = a.1 ∧
    (d.2.1 < a.2.1 ∨ (d.2.1 = a.2.1 ∧ d.2.2 ≤ a.2.2)))

instance (d a : Version) : Decidable (specVersionLe d a) := by
  unfold specVersionLe
  exact inferInstance

/-! ### Preprocessor (parser_logic.rs)

The byte buffer is a `List Nat`; the index-based `while` loop of the Rust
scanner becomes a walk over the remaining suffix of the buffer, with `i`
the absolute offset of its head (the suffix is always `bytes.drop i`).
Byte values: `/` = 47, `*` = 42, newline = 10, space = 32. -/

/-- The inner `while i < len && bytes[i] != b'\n'` loop of the line-comment
arm (parser_logic.rs:28-30): returns the remaining suffix (starting at the
newline, which is not part of the recorded span) and its absolute offset. -/
def skipLine : List Nat → Nat → List Nat × Nat
  | [], i => ([], i)
  | b :: rest, i => if b = 10 then (b :: rest, i) else skipLine rest (i + 1)

theorem skipLine_length_le : ∀ (l : List Nat) (i : Nat),
    (skipLine l i).1.length ≤ l.length := by
  intro l
  induction l with
  | nil => intro i; simp [skipLine]
  | cons b rest ih =>
    intro i
    unfold skipLine
    by_cases hb : b = 10
    · rw [if_pos hb]
    · rw [if_neg hb]
      exact le_trans (ih (i + 1)) (Nat.le_succ _)

/-- The comment scanner of `preprocess` (parser_logic.rs:20-55).  Arguments
mirror the loop state: remaining bytes, absolute offset `i`, `state`,
`block_start` and the accumulated `comment_ranges` (half-open `start..stop`
pairs).  Returns the final `(comment_ranges, state, block_start)`. -/
def scanComments : List Nat → Nat → Nat → Nat → List (Nat × Nat) →
    List (Nat × Nat) × Nat × Nat
  | [], _, state, block_start, acc => (acc, state, block_start)
  | b :: rest, i, state, block_start, acc =>
    if state = 0 then
      match rest with
      | b2 :: rest2 =>
        if b = 47 then
          if b2 = 47 then
            let sl := skipLine rest2 (i + 2)
            scanComments sl.1 sl.2 0 block_start (acc ++ [(i, sl.2)])
          else if b2 = 42 then
            scanComments rest2 (i + 2) 2 i acc
          else scanComments (b2 :: rest2) (i + 1) 0 block_start acc
        else scanComments (b2 :: rest2) (i + 1) 0 block_start acc
      | [] => (acc, 0, block_start)
    else if state = 2 then
      match rest with
      | b2 :: rest2 =>
        if b = 42 ∧ b2 = 47 then
          scanComments rest2 (i + 2) 0 block_start (acc ++ [(block_start, i + 2)])
        else scanComments (b2 :: rest2) (i + 1) 2 block_start acc
      | [] => (acc, 2, block_start)
    else scanComments rest (i + 1) state block_start acc
  termination_by l _ _ _ _ => l.length
  decreasing_by
  · simp only [List.length_cons]
    have := skipLine_length_le rest2 (i + 2)
    omega
  · simp [List.length_cons]; omega
  · simp [List.length_cons]
  · simp [List.length_cons]
  · simp [List.length_cons]; omega
  · simp [List.length_cons]
  · simp [List.length_cons]

/-- Index `idx` falls inside one of the recorded comment spans
(`Range::contains` in the masking pass, parser_logic.rs:67-71). -/
def inSpan (ranges : List (Nat × Nat)) (idx : Nat) : Prop :=
  ∃ r ∈ ranges, r.1 ≤ idx ∧ idx < r.2

instance (ranges : List (Nat × Nat)) (idx : Nat) : Decidable (inSpan ranges idx) := by
  unfold inSpan
  exact inferInstance

/-- `preprocess` (parser_logic.rs:13-74): scan for comment spans, fail with
`UnclosedComment` pinned at `block_start` when the buffer ends in state 2,
otherwise blank every byte inside a recorded span. -/
def preprocess (bytes : List Nat) (file_id : Nat) :
    Except (List Report) (List Nat) :=
  let scanned := scanComments bytes 0 0 0 []
  if scanned.2.1 = 2 then
    .error [.atLocation .UnclosedComment scanned.2.2 scanned.2.2 file_id]
  else
    .ok (bytes.enum.map (fun p => if inSpan scanned.1 p.1 then 32 else p.2))

instance {e a : Type} [DecidableEq e] [DecidableEq a] :
    DecidableEq (Except e a) := fun x y =>
  match x, y with
  | .ok v, .ok w =>
      if h : v = w then isTrue (by rw [h])
      else isFalse (fun hc => by cases hc; exact h rfl)
  | .error v, .error w =>
      if h : v = w then isTrue (by rw [h])
      else isFalse (fun hc => by cases hc; exact h rfl)
  | .ok _, .error _ => isFalse (fun hc => by cases hc)
  | .error _, .ok _ => isFalse (fun hc => by cases hc)

/-! ### Rust path semantics (std `PathBuf` and the `path_clean` crate)

`include_logic.rs` manipulates `PathBuf`s: candidate paths are built with
`PathBuf::push`, parent directories with `PathBuf::pop`, and canonicalized
with `path_clean::PathClean::clean`.  These external collaborators are
modelled here for slash-separated UTF-8 paths. -/

/-- Whether a slash path is absolute (Rust `Path::has_root`). -/
def isRooted (s : String) : Bool :=
  match s.data with
  | [] => false
  | c :: _ => c == '/'

/-- The `Normal` components of a slash path as produced by Rust
`Path::components`: split on `/`, dropping empty and `.` segments (the
`RootDir` component is tracked separately by `isRooted`; a leading `.`
component is irrelevant here because `path_clean` discards `CurDir`). -/
def pathComps (s : String) : List (List Char) :=
  (s.data.splitOn '/').filter (fun l => !(l.isEmpty || l == ['.']))

/-- Render a component list back into a slash path. -/
def renderPath (rooted : Bool) (comps : List (List Char)) : String :=
  if rooted then ⟨'/' :: [('/' : Char)].intercalate comps⟩
  else ⟨[('/' : Char)].intercalate comps⟩

/-- One step of the `path_clean` crate's loop: `..` pops a normal
component, is dropped at the root, and is kept at the head of a relative
path; every other component is pushed. -/
def cleanStep (rooted : Bool) (out : List (List Char)) (comp : List Char) :
    List (List Char) :=
  if comp = ['.', '.'] then
    match out.getLast? with
    | some l => if l = ['.', '.'] then out ++ [comp] else out.dropLast
    | none => if rooted then out else out ++ [comp]
  else out ++ [comp]

/-- The `path_clean` crate's `clean` (invoked as `.clean()` in
include_logic.rs): fold `cleanStep` over the components; an empty relative
result renders as `.`. -/
def clean (s : String) : String :=
  let out := (pathComps s).foldl (cleanStep (isRooted s)) []
  if isRooted s then renderPath true out
  else if out = [] then "."
  else renderPath false out

/-- Rust `PathBuf::push` for slash paths: an absolute argument replaces
the path, otherwise a separator is interposed when needed. -/
def pushPath (base arg : String) : String :=
  if isRooted arg then arg
  else if base = "" then arg
  else if base.data.getLast? = some '/' then ⟨base.data ++ arg.data⟩
  else ⟨base.data ++ '/' :: arg.data⟩

/-- Rust `PathBuf::pop` for slash paths: drop the last normal component;
`/` and the empty path are unchanged (`pop` returns `false` there). -/
def popPath (s : String) : String :=
  if pathComps s = [] then s
  else renderPath (isRooted s) (pathComps s).dropLast

/-! ### FileStack (include_logic.rs:25-103)

`HashMap<String, String>` (the virtual file system) is an association
list; `HashSet<PathBuf>` is a list with membership checks.  The Rust
`Vec` stack grows and pops at its end; the model keeps the top of the
stack at the head of the list. -/

/-- Key membership in the virtual file map (`HashMap::contains_key`). -/
def containsKey (m : List (String × String)) (k : String) : Bool :=
  m.any (fun p => p.1 == k)

/-- Lookup in the virtual file map (`HashMap::get`). -/
def mapGet (m : List (String × String)) (k : String) : Option String :=
  (m.find? (fun p => p.1 == k)).map Prod.snd

/-- `FileStack` (include_logic.rs:25-29). -/
structure FileStack where
  current_location : String
  black_paths : List String
  stack : List String
  deriving DecidableEq, Repr

/-- `FileStack::new` (include_logic.rs:32-36): `current_location` is the
entry file's parent directory, the entry file is the only pending path. -/
def FileStack.new (src : String) : FileStack :=
  { current_location := popPath src, black_paths := [], stack := [src] }

/-- The pop loop of `FileStack::take_next`, recursing on the stack. -/
def takeNextGo (loc : String) (black : List String) :
    List String → Option String × FileStack
  | [] => (none, ⟨loc, black, []⟩)
  | file :: rest =>
      if file ∈ black then takeNextGo loc black rest
      else (some file, ⟨popPath file, file :: black, rest⟩)

/-- `FileStack::take_next` (include_logic.rs:87-102): pop until a path not
yet in `black_paths` is found; mark it visited, point `current_location`
at its parent and return it — or drain the stack and return nothing. -/
def FileStack.take_next (fs : FileStack) : Option String × FileStack :=
  takeNextGo fs.current_location fs.black_paths fs.stack

/-- The candidate loop of `FileStack::add_include` (include_logic.rs:48-82):
join the candidate with the include name, clean and normalize it, and test
membership in the virtual file map.  (`PathBuf::to_str` cannot fail on
these strings, so the `FileOs` arm of the source is dead in the model.) -/
def addIncludeGo (f_stack : FileStack) (name : String)
    (files_map : List (String × String)) :
    List String → Except Report (String × FileStack)
  | [] => .error (.withMessage .IncludeNotFound name)
  | lib :: rest =>
      let canonical_str := normalize_path (clean (pushPath lib name))
      if containsKey files_map canonical_str then
        if canonical_str ∈ f_stack.black_paths then .ok (canonical_str, f_stack)
        else .ok (canonical_str,
          { f_stack with stack := canonical_str :: f_stack.stack })
      else addIncludeGo f_stack name files_map rest

/-- `FileStack::add_include` (include_logic.rs:38-85): the candidate list
is `current_location` followed by the library roots in caller order. -/
def FileStack.add_include (f_stack : FileStack) (name : String)
    (libraries : List String) (files_map : List (String × String)) :
    Except Report (String × FileStack) :=
  addIncludeGo f_stack name files_map (f_stack.current_location :: libraries)

/-! ### IncludesGraph (include_logic.rs:105-201) -/

/-- `IncludesNode` (include_logic.rs:105-108). -/
structure IncludesNode where
  path : String
  custom_gates_pragma : Bool
  deriving DecidableEq, Repr

/-- `IncludesGraph` (include_logic.rs:110-115).  The adjacency `HashMap`
is an association list keyed by the *included* file's path, holding the
node indices of the files that include it. -/
structure IncludesGraph where
  nodes : List IncludesNode
  adjacency : List (String × List Nat)
  custom_gates_nodes : List Nat
  deriving DecidableEq, Repr

/-- `IncludesGraph::new` (include_logic.rs:118-120). -/
def IncludesGraph.new : IncludesGraph := ⟨[], [], []⟩

/-- `IncludesGraph::add_node` (include_logic.rs:122-127): append a node;
when the file uses custom gates, record the new node (index
`nodes.len() - 1` after the push) as a traversal root. -/
def IncludesGraph.add_node (g : IncludesGraph) (path : String)
    (custom_gates_pragma : Bool) (custom_gates_usage : Bool) : IncludesGraph :=
  { nodes := g.nodes ++ [⟨path, custom_gates_pragma⟩],
    adjacency := g.adjacency,
    custom_gates_nodes := g.custom_gates_nodes ++
      if custom_gates_usage then [g.nodes.length] else [] }

/-- `HashMap::entry(path).or_default()` followed by `edges.push(idx)`. -/
def adjPush (adj : List (String × List Nat)) (key : String) (idx : Nat) :
    List (String × List Nat) :=
  if adj.any (fun p => p.1 == key) then
    adj.map (fun p => if p.1 == key then (p.1, p.2 ++ [idx]) else p)
  else adj ++ [(key, [idx])]

/-- `HashMap::get` on the adjacency map. -/
def adjGet (adj : List (String × List Nat)) (key : String) :
    Option (List Nat) :=
  (adj.find? (fun p => p.1 == key)).map Prod.snd

/-- `IncludesGraph::add_edge` (include_logic.rs:129-137): record the most
recently added node (`nodes.len() - 1`) as an includer of the normalized,
cleaned target path.  Rust's `usize` subtraction underflows on an empty
graph (Lean's `Nat` subtraction yields 0 there); claim C10 shows the
driver never calls `add_edge` on an empty graph.  The Rust signature
returns `Result` but never errs; the model returns the graph directly. -/
def IncludesGraph.add_edge (g : IncludesGraph) (old_path : String) :
    IncludesGraph :=
  let path := clean (normalize_path old_path)
  { g with adjacency := adjPush g.adjacency path (g.nodes.length - 1) }

/-- The outgoing adjacency entries of node `a` (used only to bound the
traversal; out-of-range indices have none). -/
def nodeEdges (g : IncludesGraph) (a : Nat) : List Nat :=
  match g.nodes.get? a with
  | some node => (adjGet g.adjacency node.path).getD []
  | none => []

/-- Every `(from, to)` pair the traversal can ever insert into its
`traversed_edges` set; finite, so the per-path edge set admits a
cardinality measure. -/
def edgeFinset (g : IncludesGraph) : Finset (Nat × Nat) :=
  (Finset.range g.nodes.length).biUnion
    (fun a => (nodeEdges g a).toFinset.image (fun b => (a, b)))

/-- `IncludesGraph::traverse` (include_logic.rs:147-184): report the path
from the root to every non-pragma node reached, following
included-to-includer edges, forking the `traversed_edges` set at each
branch and never re-walking an edge already on the current path.  Rust
panics if `from` is out of bounds (`self.nodes[from]`); the model returns
no chains there — unreachable for driver-built graphs, see claim C10. -/
def IncludesGraph.traverse (g : IncludesGraph) (frm : Nat)
    (path : List String) (traversed_edges : Finset (Nat × Nat)) :
    List (List String) :=
  if h : frm < g.nodes.length then
    let node := g.nodes.get ⟨frm, h⟩
    let new_path := path ++ [node.path]
    (if node.custom_gates_pragma then [] else [new_path]) ++
    (match hadj : adjGet g.adjacency node.path with
     | none => []
     | some edges =>
        (edges.attach.map (fun t =>
          if (frm, t.1) ∈ traversed_edges then []
          else g.traverse t.1 new_path
            (insert (frm, t.1) traversed_edges))).flatten)
  else []
  termination_by (edgeFinset g \ traversed_edges).card
  decreasing_by
  · have hmem : (frm, t.1) ∈ edgeFinset g := by
      apply Finset.mem_biUnion.mpr
      refine ⟨frm, Finset.mem_range.mpr h, ?_⟩
      apply Finset.mem_image.mpr
      refine ⟨t.1, ?_, rfl⟩
      apply List.mem_toFinset.mpr
      have : nodeEdges g frm = edges := by
        unfold nodeEdges
        rw [List.get?_eq_get h]
        simp only [hadj, Option.getD_some]
      rw [this]
      exact t.2
    have hsd : (frm, t.1) ∈ edgeFinset g \ traversed_edges :=
      Finset.mem_sdiff.mpr ⟨hmem, by assumption⟩
    rw [Finset.sdiff_insert]
    exact Finset.card_erase_lt_of_mem hsd

/-- `IncludesGraph::get_problematic_paths` (include_logic.rs:139-145). -/
def IncludesGraph.get_problematic_paths (g : IncludesGraph) :
    List (List String) :=
  (g.custom_gates_nodes.map (fun frm => g.traverse frm [] ∅)).flatten

/-- `rsplit_once("/")`: the final path segment, or the whole string when
no separator occurs (include_logic.rs:191-195). -/
def basename (file : String) : String :=
  if ('/' : Char) ∈ file.data then
    ⟨(file.data.reverse.takeWhile (fun c => !(c == '/'))).reverse⟩
  else file

/-- `IncludesGraph::display_path` (include_logic.rs:186-200): basenames
joined by `" -> "`, via the `(res, sep)` fold of the source. -/
def IncludesGraph.display_path (path : List String) : String :=
  (path.foldl (fun acc file => (acc.1 ++ acc.2 ++ basename file, " -> "))
    ("", "")).1

/-- Fuel-indexed unfolding of `IncludesGraph.traverse`, used to evaluate
the well-founded recursion (proved equal to it below whenever the fuel
exceeds the remaining-edge count). -/
def traverseFuel (g : IncludesGraph) : Nat → Nat → List String →
    Finset (Nat × Nat) → List (List String)
  | 0, _, _, _ => []
  | fuel + 1, frm, path, traversed_edges =>
    if h : frm < g.nodes.length then
      let node := g.nodes.get ⟨frm, h⟩
      let new_path := path ++ [node.path]
      (if node.custom_gates_pragma then [] else [new_path]) ++
      (match adjGet g.adjacency node.path with
       | none => []
       | some edges =>
          (edges.map (fun t =>
            if (frm, t) ∈ traversed_edges then []
            else traverseFuel g fuel t new_path
              (insert (frm, t) traversed_edges))).flatten)
    else []

theorem traverse_eq_traverseFuel (g : IncludesGraph) :
    ∀ (fuel : Nat) (frm : Nat) (path : List String)
      (T : Finset (Nat × Nat)), (edgeFinset g \ T).card < fuel →
      g.traverse frm path T = traverseFuel g fuel frm path T := by
  intro fuel
  induction fuel with
  | zero => intro frm path T h; exact absurd h (Nat.not_lt_zero _)
  | succ n ih =>
    intro frm path T hcard
    unfold IncludesGraph.traverse traverseFuel
    by_cases h : frm < g.nodes.length
    · rw [dif_pos h, dif_pos h]
      simp only []
      congr 1
      rcases hadj : adjGet g.adjacency (g.nodes.get ⟨frm, h⟩).path with _ | edges
      · rfl
      · dsimp only
        congr 1
        rw [List.map_attach]
        dsimp only
        rw [List.pmap_eq_map]
        apply List.map_congr_left
        intro t ht
        by_cases hmem : (frm, t) ∈ T
        · rw [if_pos hmem, if_pos hmem]
        · rw [if_neg hmem, if_neg hmem]
          apply ih
          have hE : (frm, t) ∈ edgeFinset g := by
            apply Finset.mem_biUnion.mpr
            refine ⟨frm, Finset.mem_range.mpr h, ?_⟩
            apply Finset.mem_image.mpr
            refine ⟨t, ?_, rfl⟩
            apply List.mem_toFinset.mpr
            have : nodeEdges g frm = edges := by
              unfold nodeEdges
              rw [List.get?_eq_get h]
              simp only [hadj, Option.getD_some]
            rw [this]
            exact ht
          have hsd : (frm, t) ∈ edgeFinset g \ T := Finset.mem_sdiff.mpr ⟨hE, hmem⟩
          rw [Finset.sdiff_insert]
          have := Finset.card_erase_lt_of_mem hsd
          omega
    · rw [dif_neg h, dif_neg h]

theorem get_problematic_paths_eq_fuel (g : IncludesGraph) :
    g.get_problematic_paths = (g.custom_gates_nodes.map
      (fun frm => traverseFuel g ((edgeFinset g).card + 1) frm [] ∅)).flatten := by
  unfold IncludesGraph.get_problematic_paths
  congr 1
  apply List.map_congr_left
  intro frm _
  apply traverse_eq_traverseFuel
  simp

/-- Every chain reported by the traversal extends the incoming path by at
most the fuel. -/
theorem traverseFuel_chain_length (g : IncludesGraph) :
    ∀ (fuel frm : Nat) (path : List String) (T : Finset (Nat × Nat))
      (c : List String), c ∈ traverseFuel g fuel frm path T →
      c.length ≤ path.length + fuel := by
  intro fuel
  induction fuel with
  | zero => intro frm path T c hc; simp [traverseFuel] at hc
  | succ n ih =>
    intro frm path T c hc
    unfold traverseFuel at hc
    by_cases h : frm < g.nodes.length
    · rw [dif_pos h] at hc
      simp only [] at hc
      rcases List.mem_append.mp hc with hc | hc
      · by_cases hp : (g.nodes.get ⟨frm, h⟩).custom_gates_pragma
        · rw [if_pos hp] at hc
          simp at hc
        · rw [if_neg hp] at hc
          simp at hc
          subst hc
          simp
      · rcases hadj : adjGet g.adjacency (g.nodes.get ⟨frm, h⟩).path with _ | edges
        · rw [hadj] at hc
          simp at hc
        · rw [hadj] at hc
          dsimp only at hc
          rw [List.mem_flatten] at hc
          obtain ⟨l, hl, hcl⟩ := hc
          rw [List.mem_map] at hl
          obtain ⟨t, _, hlt⟩ := hl
          subst hlt
          by_cases hmem : (frm, t) ∈ T
          · rw [if_pos hmem] at hcl
            simp at hcl
          · rw [if_neg hmem] at hcl
            have := ih t _ _ c hcl
            simp at this
            omega
    · rw [dif_neg h] at hc
      simp at hc

/-! ### Driver (lib.rs)

The external collaborators — the grammar parser behind
`parser_logic::parse_file`, `ProgramArchive::new` and
`apply_syntactic_sugar` — are supplied as oracle functions, as §6 of the
spec prescribes.  `FileLibrary` is the list of `(path, src)` pairs;
`add_file` appends and returns the new index. -/

/-- The location payload of a main-component descriptor
(`exp.get_meta().location` is all the driver reads from it). -/
abbrev MainComponent := Nat × Nat

/-- The per-file result of the external grammar parser
(`program_structure::ast::AST`).  Per the spec's data model,
`custom_gates` is the declares-pragma flag (the file explicitly opted
into the custom-gates pragma) and `custom_gates_declared` is the
uses-feature flag (the file's AST actually uses custom-gates syntax). -/
structure Program where
  main_component : Option MainComponent
  custom_gates : Bool
  custom_gates_declared : Bool
  includes : List String
  definitions : Nat
  compiler_version : Option Version
  deriving DecidableEq, Repr

/-- The driver's external collaborators. -/
structure Externals (A : Type) where
  parse_file : String → Nat → Except (List Report) Program
  archive_new : List (String × String) → Nat → MainComponent →
    List (Nat × Nat) → Bool → Except (List (String × String) × List Report) A
  get_file_library : A → List (String × String)
  apply_syntactic_sugar : A → Except Report Unit

/-- `open_file` (lib.rs:202-212): look the path up in the virtual file
map (`to_str` cannot fail in the model). -/
def open_file (path : String) (files_map : List (String × String)) :
    Except Report (String × String) :=
  match mapGet files_map path with
  | some src => .ok (path, src)
  | none => .error (.withMessage .FileOs path)

/-- The candidate loop of `find_file` (lib.rs:45-60), carrying the
`(path, src, crr_str_file, reports)` accumulator the source mutates. -/
def findFileGo (crr_file : String) (files_map : List (String × String))
    (path src crr_str_file : String) (reports : List Report) :
    List String → Bool × String × String × String × List Report
  | [] => (false, path, src, crr_str_file, reports)
  | aux :: rest =>
      let p := pushPath aux crr_file
      match open_file p files_map with
      | .ok (new_path, new_src) => (true, new_path, new_src, p, reports)
      | .error e =>
          findFileGo crr_file files_map path src p (reports ++ [e]) rest

/-- `find_file` (lib.rs:35-62): try each library root joined with the
file, first hit wins; returns `(found, path, src, crr_str_file,
reports)`. -/
def find_file (crr_file : String) (ext_link_libraries : List String)
    (files_map : List (String × String)) :
    Bool × String × String × String × List Report :=
  findFileGo crr_file files_map "" "" crr_file [] ext_link_libraries

/-- `produce_report_with_main_components` (lib.rs:180-200): one report
carrying every candidate's location and file id. -/
def produce_report_with_main_components
    (main_components : List (Nat × MainComponent × Bool)) : Report :=
  .multipleMain (main_components.map (fun m => (m.2.1, m.1)))

/-- The state the `run_parser` loop threads (lib.rs:70-75). -/
structure RunState where
  file_library : List (String × String)
  definitions : List (Nat × Nat)
  main_components : List (Nat × MainComponent × Bool)
  file_stack : FileStack
  includes_graph : IncludesGraph
  warnings : List Report
  deriving DecidableEq

/-- The `for include in includes` loop of the driver (lib.rs:98-108):
resolve each include through the file stack and record a graph edge. -/
def processIncludes (link_libraries : List String)
    (files_map : List (String × String)) :
    List String → FileStack → IncludesGraph →
    Except Report (FileStack × IncludesGraph)
  | [], fs, g => .ok (fs, g)
  | inc :: rest, fs, g =>
      match fs.add_include inc link_libraries files_map with
      | .error e => .error e
      | .ok (path_include, fs') =>
          processIncludes link_libraries files_map rest fs'
            (g.add_edge path_include)

/-- One iteration of the `while let Some(crr_file)` loop of `run_parser`
(lib.rs:81-125): locate and parse the file, register its node, resolve its
includes, and run the version gates.  Every fatal arm returns only that
failure's reports. -/
def processFile {A : Type} (ext : Externals A) (version : String)
    (link_libraries ext_link_libraries : List String)
    (files_map : List (String × String)) (st : RunState)
    (crr_file : String) :
    Except (List (String × String) × List Report) RunState :=
  match find_file crr_file ext_link_libraries files_map with
  | (found, path, src, crr_str_file, reports) =>
    if found = false then .error (st.file_library, reports)
    else
      let file_id := st.file_library.length
      let file_library := st.file_library ++ [(path, src)]
      match ext.parse_file src file_id with
      | .error e => .error (file_library, e)
      | .ok program =>
          let main_components := match program.main_component with
            | some main =>
                st.main_components ++ [(file_id, main, program.custom_gates)]
            | none => st.main_components
          let includes_graph := st.includes_graph.add_node crr_str_file
            program.custom_gates program.custom_gates_declared
          let definitions := st.definitions ++ [(file_id, program.definitions)]
          match processIncludes link_libraries files_map program.includes
              st.file_stack includes_graph with
          | .error e => .error (file_library, [e])
          | .ok (file_stack, includes_graph) =>
              match check_number_version path program.compiler_version
                  (parse_number_version version) with
              | .error e => .error (file_library, [e])
              | .ok ws =>
                  let warnings := st.warnings ++ ws
                  if program.custom_gates then
                    match check_custom_gates_version path
                        program.compiler_version
                        (parse_number_version version) with
                    | .error e => .error (file_library, [e])
                    | .ok _ => .ok ⟨file_library, definitions,
                        main_components, file_stack, includes_graph, warnings⟩
                  else .ok ⟨file_library, definitions, main_components,
                    file_stack, includes_graph, warnings⟩

/-- The post-loop phase of `run_parser` (lib.rs:127-177): main-component
cardinality check, the global pragma-soundness check, then archive
assembly and desugaring; all of these merge the accumulated warnings into
their failure reports. -/
def postLoop {A : Type} (ext : Externals A) (st : RunState) :
    Except (List (String × String) × List Report) (A × List Report) :=
  if st.main_components.isEmpty then
    .error (st.file_library,
      st.warnings ++ [.atLocation .NoMainFoundInProject 0 0 0])
  else if st.main_components.length > 1 then
    .error (st.file_library,
      st.warnings ++ [produce_report_with_main_components st.main_components])
  else
    let errors := st.includes_graph.get_problematic_paths.map (fun path =>
      Report.errorMsg
        ("Missing custom templates pragma in file " ++
          (path.getLast?.getD "") ++
          " because of the following chain of includes " ++
          IncludesGraph.display_path path)
        .CustomGatesPragmaError)
    if ¬ errors.isEmpty then .error (st.file_library, st.warnings ++ errors)
    else
      match st.main_components.getLast? with
      | none => .error (st.file_library, st.warnings)
      | some (main_id, main_component, custom_gates) =>
          match ext.archive_new st.file_library main_id main_component
              st.definitions custom_gates with
          | .error (lib, rep) => .error (lib, st.warnings ++ rep)
          | .ok program_archive =>
              let lib := ext.get_file_library program_archive
              match ext.apply_syntactic_sugar program_archive with
              | .error v => .error (lib, st.warnings ++ [v])
              | .ok _ => .ok (program_archive, st.warnings)

theorem containsKey_iff (m : List (String × String)) (k : String) :
    containsKey m k = true ↔ k ∈ m.map Prod.fst := by
  unfold containsKey
  rw [List.any_eq_true]
  constructor
  · rintro ⟨p, hp, he⟩
    rw [beq_iff_eq] at he
    exact List.mem_map.mpr ⟨p, hp, he⟩
  · intro hk
    obtain ⟨p, hp, he⟩ := List.mem_map.mp hk
    exact ⟨p, hp, beq_iff_eq.mpr he⟩

/-- What a successful `take_next` guarantees: the returned path was
pending and unvisited, is marked visited, and the rest of the stack is a
sub-collection of the old one. -/
theorem takeNextGo_some_spec (loc : String) (black : List String) :
    ∀ (stack : List String) (p : String) (fs' : FileStack),
    takeNextGo loc black stack = (some p, fs') →
    p ∈ stack ∧ p ∉ black ∧ fs'.black_paths = p :: black ∧
    ∀ q ∈ fs'.stack, q ∈ stack := by
  intro stack
  induction stack with
  | nil => intro p fs' h; simp [takeNextGo] at h
  | cons f rest ih =>
    intro p fs' h
    unfold takeNextGo at h
    by_cases hf : f ∈ black
    · rw [if_pos hf] at h
      obtain ⟨h1, h2, h3, h4⟩ := ih p fs' h
      exact ⟨List.mem_cons_of_mem _ h1, h2, h3,
        fun q hq => List.mem_cons_of_mem _ (h4 q hq)⟩
    · rw [if_neg hf] at h
      injection h with h1 h2
      injection h1 with h1
      subst h1
      subst h2
      exact ⟨List.mem_cons_self _ _, hf, rfl,
        fun q hq => List.mem_cons_of_mem _ hq⟩

theorem take_next_some_spec :
    ∀ (fs : FileStack) (p : String) (fs' : FileStack),
    FileStack.take_next fs = (some p, fs') →
    p ∈ fs.stack ∧ p ∉ fs.black_paths ∧
    fs'.black_paths = p :: fs.black_paths ∧
    ∀ q ∈ fs'.stack, q ∈ fs.stack := by
  intro fs p fs' h
  exact takeNextGo_some_spec fs.current_location fs.black_paths fs.stack
    p fs' h

/-- A `take_next` that drains the stack changes neither the visited set
nor the stack's membership. -/
theorem takeNextGo_none_spec (loc : String) (black : List String) :
    ∀ (stack : List String) (fs' : FileStack),
    takeNextGo loc black stack = (none, fs') →
    fs'.black_paths = black ∧ fs'.stack = [] := by
  intro stack
  induction stack with
  | nil =>
    intro fs' h
    unfold takeNextGo at h
    injection h with h1 h2
    subst h2
    exact ⟨rfl, rfl⟩
  | cons f rest ih =>
    intro fs' h
    unfold takeNextGo at h
    by_cases hf : f ∈ black
    · rw [if_pos hf] at h
      exact ih fs' h
    · rw [if_neg hf] at h
      injection h with h1 h2
      simp at h1

theorem take_next_none_spec :
    ∀ (fs : FileStack) (fs' : FileStack),
    FileStack.take_next fs = (none, fs') →
    fs'.black_paths = fs.black_paths ∧ fs'.stack = [] := by
  intro fs fs' h
  exact takeNextGo_none_spec fs.current_location fs.black_paths fs.stack
    fs' h

/-- What a successful `add_include` guarantees: the visited set and
current location are untouched, the resolved path is a key of the file
map, and at most that path was pushed. -/
theorem addIncludeGo_state (fs : FileStack) (name : String)
    (fm : List (String × String)) :
    ∀ (cands : List String) (p : String) (fs' : FileStack),
    addIncludeGo fs name fm cands = .ok (p, fs') →
    fs'.black_paths = fs.black_paths ∧
    fs'.current_location = fs.current_location ∧
    containsKey fm p = true ∧
    (fs'.stack = fs.stack ∨ fs'.stack = p :: fs.stack) := by
  intro cands
  induction cands with
  | nil => intro p fs' h; simp [addIncludeGo] at h
  | cons lib rest ih =>
    intro p fs' h
    unfold addIncludeGo at h
    by_cases hc : containsKey fm (normalize_path (clean (pushPath lib name)))
    · rw [if_pos hc] at h
      by_cases hb : normalize_path (clean (pushPath lib name)) ∈ fs.black_paths
      · rw [if_pos hb] at h
        injection h with h1
        injection h1 with h1 h2
        subst h1
        subst h2
        exact ⟨rfl, rfl, hc, Or.inl rfl⟩
      · rw [if_neg hb] at h
        injection h with h1
        injection h1 with h1 h2
        subst h1
        subst h2
        exact ⟨rfl, rfl, hc, Or.inr rfl⟩
    · rw [if_neg hc] at h
      exact ih p fs' h

/-- `add_edge` touches only the adjacency map. -/
theorem add_edge_nodes (g : IncludesGraph) (p : String) :
    (g.add_edge p).nodes = g.nodes ∧
    (g.add_edge p).custom_gates_nodes = g.custom_gates_nodes := by
  unfold IncludesGraph.add_edge
  exact ⟨rfl, rfl⟩

/-- What the include loop guarantees: visited set untouched, only file-map
keys pushed, graph nodes and roots untouched. -/
theorem processIncludes_state (libs : List String)
    (fm : List (String × String)) :
    ∀ (incs : List String) (fs : FileStack) (g : IncludesGraph)
      (fs' : FileStack) (g' : IncludesGraph),
    processIncludes libs fm incs fs g = .ok (fs', g') →
    fs'.black_paths = fs.black_paths ∧
    (∀ q ∈ fs'.stack, q ∈ fs.stack ∨ containsKey fm q = true) ∧
    g'.nodes = g.nodes ∧ g'.custom_gates_nodes = g.custom_gates_nodes := by
  intro incs
  induction incs with
  | nil =>
    intro fs g fs' g' h
    simp only [processIncludes] at h
    injection h with h1
    injection h1 with h1 h2
    subst h1
    subst h2
    exact ⟨rfl, fun q hq => Or.inl hq, rfl, rfl⟩
  | cons inc rest ih =>
    intro fs g fs' g' h
    unfold processIncludes at h
    rcases hai : fs.add_include inc libs fm with e | ⟨path_include, fs₁⟩
    · rw [hai] at h
      simp at h
    · rw [hai] at h
      dsimp only at h
      obtain ⟨hb1, _, hk1, hs1⟩ :=
        addIncludeGo_state fs inc fm _ path_include fs₁ hai
      obtain ⟨hb2, hs2, hn2, hc2⟩ := ih fs₁ (g.add_edge path_include) fs' g' h
      have hnodes := add_edge_nodes g path_include
      refine ⟨hb2.trans hb1, ?_, hn2.trans hnodes.1, hc2.trans hnodes.2⟩
      intro q hq
      rcases hs2 q hq with hq' | hq'
      · rcases hs1 with hst | hst
        · exact Or.inl (hst ▸ hq')
        · rw [hst] at hq'
          rcases List.mem_cons.mp hq' with hq'' | hq''
          · exact Or.inr (hq'' ▸ hk1)
          · exact Or.inl hq''
      · exact Or.inr hq'

/-- What a successful `processFile` guarantees about the worklist: the
visited set is untouched and only file-map keys are pushed. -/
theorem processFile_state {A : Type} (ext : Externals A) (version : String)
    (libs extlibs : List String) (fm : List (String × String))
    (st : RunState) (crr : String) (st₂ : RunState)
    (h : processFile ext version libs extlibs fm st crr = .ok st₂) :
    st₂.file_stack.black_paths = st.file_stack.black_paths ∧
    (∀ q ∈ st₂.file_stack.stack,
      q ∈ st.file_stack.stack ∨ containsKey fm q = true) := by
  unfold processFile at h
  rcases hff : find_file crr extlibs fm with ⟨found, path, src, csf, reports⟩
  rw [hff] at h
  dsimp only at h
  by_cases hfound : found = false
  · rw [if_pos hfound] at h
    simp at h
  · rw [if_neg hfound] at h
    rcases hparse : ext.parse_file src st.file_library.length with e | program
    · rw [hparse] at h
      simp at h
    · rw [hparse] at h
      dsimp only at h
      rcases hpi : processIncludes libs fm program.includes st.file_stack
          (st.includes_graph.add_node csf program.custom_gates
            program.custom_gates_declared) with e | ⟨fs', g'⟩
      · rw [hpi] at h
        simp at h
      · rw [hpi] at h
        dsimp only at h
        obtain ⟨hb, hs, _, _⟩ := processIncludes_state libs fm _ _ _ _ _ hpi
        rcases hver : check_number_version path program.compiler_version
            (parse_number_version version) with e | ws
        · rw [hver] at h
          simp at h
        · rw [hver] at h
          dsimp only at h
          by_cases hcg : program.custom_gates = true
          · rw [if_pos hcg] at h
            rcases hcgv : check_custom_gates_version path
                program.compiler_version (parse_number_version version) with
                e | u
            · rw [hcgv] at h
              simp at h
            · rw [hcgv] at h
              injection h with h1
              subst h1
              exact ⟨hb, hs⟩
          · rw [if_neg hcg] at h
            injection h with h1
            subst h1
            exact ⟨hb, hs⟩

/-- The keys of the virtual file map, as a finite set. -/
def fileKeys (files_map : List (String × String)) : Finset String :=
  (files_map.map Prod.fst).toFinset

/-- Paths the loop may still process: known files and pending stack
entries not yet visited.  Every processed file leaves this set and only
file-map keys enter the stack, so its cardinality bounds the remaining
loop iterations. -/
def stackKeys (files_map : List (String × String)) (st : RunState) :
    Finset String :=
  (fileKeys files_map ∪ st.file_stack.stack.toFinset) \
    st.file_stack.black_paths.toFinset

/-- Loop measure for `run_parser`'s worklist recursion. -/
def runMeasure (files_map : List (String × String)) (st : RunState) : Nat :=
  (stackKeys files_map st).card

theorem runMeasure_lt (fm : List (String × String)) (st st₂ : RunState)
    (p : String)
    (hp_stack : p ∈ st.file_stack.stack)
    (hp_black : p ∉ st.file_stack.black_paths)
    (hblack : st₂.file_stack.black_paths = p :: st.file_stack.black_paths)
    (hstack : ∀ q ∈ st₂.file_stack.stack,
      q ∈ st.file_stack.stack ∨ containsKey fm q = true) :
    runMeasure fm st₂ < runMeasure fm st := by
  apply Finset.card_lt_card
  rw [Finset.ssubset_def]
  constructor
  · intro q hq
    rw [stackKeys, Finset.mem_sdiff, Finset.mem_union] at hq ⊢
    obtain ⟨hq1, hq2⟩ := hq
    rw [hblack] at hq2
    rw [List.mem_toFinset] at hq2
    constructor
    · rcases hq1 with hq1 | hq1
      · exact Or.inl hq1
      · rw [List.mem_toFinset] at hq1
        rcases hstack q hq1 with h | h
        · exact Or.inr (List.mem_toFinset.mpr h)
        · rw [containsKey_iff] at h
          exact Or.inl (List.mem_toFinset.mpr h)
    · rw [List.mem_toFinset]
      intro hc
      exact hq2 (List.mem_cons_of_mem _ hc)
  · intro hsub
    have hp : p ∈ stackKeys fm st := by
      rw [stackKeys, Finset.mem_sdiff, Finset.mem_union]
      exact ⟨Or.inr (List.mem_toFinset.mpr hp_stack),
        fun hc => hp_black (List.mem_toFinset.mp hc)⟩
    have := hsub hp
    rw [stackKeys, Finset.mem_sdiff] at this
    apply this.2
    rw [hblack, List.mem_toFinset]
    exact List.mem_cons_self _ _

/-- The `while let Some(crr_file) = FileStack::take_next` loop of
`run_parser` (lib.rs:81-125), followed by the post-loop phase.  The
recursion is on the unvisited known-file count: each iteration visits a
fresh path and pushes only file-map keys. -/
def runLoop {A : Type} (ext : Externals A) (version : String)
    (link_libraries ext_link_libraries : List String)
    (files_map : List (String × String)) (st : RunState) :
    Except (List (String × String) × List Report) (A × List Report) :=
  match htn : FileStack.take_next st.file_stack with
  | (none, fs') => postLoop ext { st with file_stack := fs' }
  | (some crr_file, fs') =>
      match hpf : processFile ext version link_libraries ext_link_libraries
          files_map { st with file_stack := fs' } crr_file with
      | .error e => .error e
      | .ok st₂ => runLoop ext version link_libraries ext_link_libraries
          files_map st₂
  termination_by runMeasure files_map st
  decreasing_by
  · obtain ⟨h1, h2, h3, h4⟩ := take_next_some_spec st.file_stack crr_file fs' htn
    obtain ⟨hb, hs⟩ := processFile_state ext version link_libraries
      ext_link_libraries files_map _ crr_file st₂ hpf
    apply runMeasure_lt files_map st st₂ crr_file h1 h2
    · rw [hb]
      exact h3
    · intro q hq
      rcases hs q hq with h | h
      · exact Or.inl (h4 q h)
      · exact Or.inr h

/-- `run_parser` (lib.rs:64-178): initial state and the worklist loop.
`ext_link_libraries` is the empty root followed by the library roots
(lib.rs:77-79). -/
def runParser {A : Type} (ext : Externals A) (file : String)
    (version : String) (link_libraries : List String)
    (files_map : List (String × String)) :
    Except (List (String × String) × List Report) (A × List Report) :=
  runLoop ext version link_libraries ("" :: link_libraries) files_map
    ⟨[], [], [], FileStack.new file, IncludesGraph.new, []⟩

/-- Fuel-indexed unfolding of `runLoop` (its value at exhausted fuel is
irrelevant: the equivalence below only needs fuel above the measure). -/
def runLoopFuel {A : Type} (ext : Externals A) (version : String)
    (link_libraries ext_link_libraries : List String)
    (files_map : List (String × String)) :
    Nat → RunState → Except (List (String × String) × List Report)
      (A × List Report)
  | 0, st => .error (st.file_library, st.warnings)
  | fuel + 1, st =>
    match FileStack.take_next st.file_stack with
    | (none, fs') => postLoop ext { st with file_stack := fs' }
    | (some crr_file, fs') =>
        match processFile ext version link_libraries ext_link_libraries
            files_map { st with file_stack := fs' } crr_file with
        | .error e => .error e
        | .ok st₂ => runLoopFuel ext version link_libraries
            ext_link_libraries files_map fuel st₂

theorem runLoop_eq_fuel {A : Type} (ext : Externals A) (version : String)
    (link_libraries ext_link_libraries : List String)
    (files_map : List (String × String)) :
    ∀ (fuel : Nat) (st : RunState), runMeasure files_map st < fuel →
    runLoop ext version link_libraries ext_link_libraries files_map st =
      runLoopFuel ext version link_libraries ext_link_libraries files_map
        fuel st := by
  intro fuel
  induction fuel with
  | zero => intro st h; exact absurd h (Nat.not_lt_zero _)
  | succ n ih =>
    intro st h
    unfold runLoop runLoopFuel
    rcases htn : FileStack.take_next st.file_stack with ⟨o, fs'⟩
    rcases o with _ | crr_file
    · dsimp only
    · dsimp only
      rcases hpf : processFile ext version link_libraries ext_link_libraries
          files_map { st with file_stack := fs' } crr_file with e | st₂
      · dsimp only
      · dsimp only
        apply ih
        obtain ⟨h1, h2, h3, h4⟩ :=
          take_next_some_spec st.file_stack crr_file fs' htn
        obtain ⟨hb, hs⟩ := processFile_state ext version link_libraries
          ext_link_libraries files_map _ crr_file st₂ hpf
        have hlt := runMeasure_lt files_map st st₂ crr_file h1 h2
          (by rw [hb]; exact h3)
          (fun q hq => (hs q hq).elim (fun hq' => Or.inl (h4 q hq'))
            Or.inr)
        omega

/-! ### FileStack operation sequences (for the visited-set invariant) -/

theorem add_include_state (fs : FileStack) (name : String)
    (libs : List String) (fm : List (String × String)) (p : String)
    (fs' : FileStack) (h : fs.add_include name libs fm = .ok (p, fs')) :
    fs'.black_paths = fs.black_paths ∧
    fs'.current_location = fs.current_location ∧
    containsKey fm p = true ∧
    (fs'.stack = fs.stack ∨ fs'.stack = p :: fs.stack) :=
  addIncludeGo_state fs name fm _ p fs' h

/-- An arbitrary interleaving of `take_next` and `add_include` calls. -/
inductive FSOp where
  | takeNext : FSOp
  | addInclude (name : String) (libraries : List String)
      (files_map : List (String × String)) : FSOp

/-- Apply a sequence of operations to a `FileStack`, returning the final
stack and every path `take_next` yielded, in order. -/
def runOps : FileStack → List FSOp → FileStack × List String
  | fs, [] => (fs, [])
  | fs, FSOp.takeNext :: ops =>
      match FileStack.take_next fs with
      | (none, fs') => runOps fs' ops
      | (some p, fs') =>
          let r := runOps fs' ops
          (r.1, p :: r.2)
  | fs, FSOp.addInclude name libs fm :: ops =>
      match fs.add_include name libs fm with
      | .error _ => runOps fs ops
      | .ok (_, fs') => runOps fs' ops

/-- Across any operation sequence: the visited set only grows, every
yielded path was fresh when popped and is visited afterwards. -/
theorem runOps_spec : ∀ (ops : List FSOp) (fs : FileStack),
    (∀ q ∈ fs.black_paths, q ∈ (runOps fs ops).1.black_paths) ∧
    (∀ p ∈ (runOps fs ops).2,
      p ∉ fs.black_paths ∧ p ∈ (runOps fs ops).1.black_paths) ∧
    (runOps fs ops).2.Nodup := by
  intro ops
  induction ops with
  | nil =>
    intro fs
    exact ⟨fun q hq => hq, fun p hp => absurd hp (List.not_mem_nil p),
      List.nodup_nil⟩
  | cons op rest ih =>
    intro fs
    cases op with
    | takeNext =>
      rcases htn : FileStack.take_next fs with ⟨o, fs'⟩
      rcases o with _ | p
      · obtain ⟨hblack, _⟩ := take_next_none_spec fs fs' htn
        obtain ⟨ih1, ih2, ih3⟩ := ih fs'
        rw [runOps, htn]
        exact ⟨fun q hq => ih1 q (hblack ▸ hq),
          fun q hq => ⟨fun hc => ((ih2 q hq).1) (hblack ▸ hc),
            (ih2 q hq).2⟩, ih3⟩
      · obtain ⟨_, hfresh, hblack, _⟩ := take_next_some_spec fs p fs' htn
        obtain ⟨ih1, ih2, ih3⟩ := ih fs'
        rw [runOps, htn]
        dsimp only
        refine ⟨?_, ?_, ?_⟩
        · intro q hq
          exact ih1 q (by rw [hblack]; exact List.mem_cons_of_mem _ hq)
        · intro q hq
          rcases List.mem_cons.mp hq with hq' | hq'
          · subst hq'
            exact ⟨hfresh, ih1 q (by rw [hblack]; exact List.mem_cons_self _ _)⟩
          · refine ⟨?_, (ih2 q hq').2⟩
            intro hc
            exact (ih2 q hq').1 (by rw [hblack]; exact List.mem_cons_of_mem _ hc)
        · rw [List.nodup_cons]
          refine ⟨?_, ih3⟩
          intro hc
          exact (ih2 p hc).1 (by rw [hblack]; exact List.mem_cons_self _ _)
    | addInclude name libs fm =>
      rcases hai : fs.add_include name libs fm with e | ⟨q, fs'⟩
      · obtain ⟨ih1, ih2, ih3⟩ := ih fs
        rw [runOps, hai]
        exact ⟨ih1, ih2, ih3⟩
      · obtain ⟨hblack, _, _, _⟩ := add_include_state fs name libs fm q fs' hai
        obtain ⟨ih1, ih2, ih3⟩ := ih fs'
        rw [runOps, hai]
        exact ⟨fun r hr => ih1 r (hblack ▸ hr),
          fun r hr => ⟨fun hc => (ih2 r hr).1 (hblack ▸ hc), (ih2 r hr).2⟩,
          ih3⟩

/-- The candidate loop of `add_include` is a first-match search. -/
theorem addIncludeGo_find (fs : FileStack) (name : String)
    (fm : List (String × String)) :
    ∀ (cands : List String), addIncludeGo fs name fm cands =
      match cands.find? (fun lib =>
          containsKey fm (normalize_path (clean (pushPath lib name)))) with
      | some lib =>
          .ok (normalize_path (clean (pushPath lib name)),
            if normalize_path (clean (pushPath lib name)) ∈ fs.black_paths
            then fs
            else { fs with stack :=
              normalize_path (clean (pushPath lib name)) :: fs.stack })
      | none => .error (.withMessage .IncludeNotFound name) := by
  intro cands
  induction cands with
  | nil => rfl
  | cons lib rest ih =>
    by_cases hc : containsKey fm (normalize_path (clean (pushPath lib name)))
    · rw [List.find?_cons_of_pos
        (p := fun l => containsKey fm (normalize_path (clean (pushPath l name))))
        rest hc]
      unfold addIncludeGo
      rw [if_pos hc]
      by_cases hb : normalize_path (clean (pushPath lib name)) ∈ fs.black_paths
      · rw [if_pos hb]
        dsimp only
        rw [if_pos hb]
      · rw [if_neg hb]
        dsimp only
        rw [if_neg hb]
    · rw [List.find?_cons_of_neg
        (p := fun l => containsKey fm (normalize_path (clean (pushPath l name))))
        rest (by simp [hc])]
      unfold addIncludeGo
      rw [if_neg hc]
      exact ih

/-! ### Concrete fixtures -/

/-- The diamond include graph of the spec's §8 example, built in driver
order: the root (declares the pragma) is parsed first and includes `a` and
`b` (neither declares), then `b` and `a` are parsed, each including `c`,
and finally `c` (declares the pragma, uses the feature). -/
def diamondGraph : IncludesGraph :=
  (((((((IncludesGraph.new.add_node "/r.circom" true false).add_edge
    "/a.circom").add_edge "/b.circom").add_node "/b.circom" false
    false).add_edge "/c.circom").add_node "/a.circom" false
    false).add_edge "/c.circom").add_node "/c.circom" true true

/-- The cyclic include graph of the spec's §8 example: `a` includes `b`,
`b` includes `a`, `a` uses the feature, neither declares the pragma. -/
def cyclicGraph : IncludesGraph :=
  (((IncludesGraph.new.add_node "/a.circom" false true).add_edge
    "/b.circom").add_node "/b.circom" false false).add_edge "/a.circom"

/-- Bytes of the spec's §8 preprocessor example. -/
def exBytes : List Nat := "a /* b\nc */ d // e\nf".data.map Char.toNat

/-- Expected masked buffer for `exBytes`: spans `2..11` (block comment)
and `14..18` (line comment) blanked, every other byte — including the
final newline — untouched. -/
def exMasked : List Nat :=
  [97, 32, 32, 32, 32, 32, 32, 32, 32, 32, 32, 32, 100, 32, 32, 32, 32,
   32, 10, 102]

/-- A two-file virtual file system: the entry file and one include. -/
def files4 : List (String × String) :=
  [("/main.circom", "srcmain"), ("/second.circom", "srcsecond")]

/-- Parse result for the entry file: declares a main component, includes
`/second.circom`, has no version pragma (yielding a warning), and neither
declares nor uses custom gates. -/
def prog_main : Program := ⟨some (0, 0), false, false, ["/second.circom"], 0, none⟩

/-- Parse result for the included file in the successful variant. -/
def prog_second_ok : Program := ⟨none, false, false, [], 1, some (2, 0, 0)⟩

/-- Grammar-parser oracle whose second file fails to parse. -/
def parse4 (src : String) (_ : Nat) : Except (List Report) Program :=
  if src = "srcmain" then .ok prog_main
  else .error [.errorMsg "unexpected token" .IllegalExpression]

/-- Grammar-parser oracle for which both files parse. -/
def parse4ok (src : String) (_ : Nat) : Except (List Report) Program :=
  if src = "srcmain" then .ok prog_main
  else if src = "srcsecond" then .ok prog_second_ok
  else .error [.errorMsg "unexpected token" .IllegalExpression]

/-- External collaborators built on `parse4`; archives are bare numbers
and assembly and desugaring always succeed. -/
def ext4 : Externals Nat :=
  ⟨parse4, fun _ _ _ _ _ => .ok 0, fun _ => [], fun _ => .ok ()⟩

/-- External collaborators built on `parse4ok`. -/
def ext4ok : Externals Nat :=
  ⟨parse4ok, fun _ _ _ _ _ => .ok 0, fun _ => [], fun _ => .ok ()⟩

/-- The driver state at entry to the first loop iteration. -/
def st0 : RunState :=
  ⟨[], [], [], FileStack.new "/main.circom", IncludesGraph.new, []⟩

/-- The state after `processFile` handles the entry file of `files4`. -/
def st_main : RunState :=
  ⟨[("/main.circom", "srcmain")], [(0, 0)], [(0, (0, 0), false)],
   ⟨"/", [], ["/second.circom", "/main.circom"]⟩,
   ⟨[⟨"/main.circom", false⟩], [("/second.circom", [0])], []⟩,
   [.versionWarning "/main.circom" (2, 1, 5)]⟩

/-! ### Claim theorems -/

/-- C2 (counterexample): the spec says a declared version below the
actual version in the lexicographic component order always passes — but
`check_number_version` rejects `(1,0,0)` against actual `(2,1,5)` even
though `(1,0,0) ≤ (2,1,5)` lexicographically, because the code demands
equal majors. -/
theorem check_number_version_lex_counterexample :
    specVersionLe (1, 0, 0) (2, 1, 5) ∧
    check_number_version "main.circom" (some (1, 0, 0)) (2, 1, 5) =
      .error (.compilerVersion "main.circom" (1, 0, 0) (2, 1, 5)) :=
  ⟨by decide, by decide⟩

/-- C2 (amended): `check_number_version` on a declared version succeeds
(with no warning) iff the declared major equals the actual major and the
declared `(minor, patch)` is lexicographically at most the actual one;
otherwise it fails with a version-mismatch error carrying both versions
and the file path.  In particular a declared major strictly below the
actual major fails. -/
theorem check_number_version_same_major (fp : String) (d a : Version) :
    (check_number_version fp (some d) a = .ok [] ↔
      d.1 = a.1 ∧ (d.2.1 < a.2.1 ∨ (d.2.1 = a.2.1 ∧ d.2.2 ≤ a.2.2))) ∧
    (check_number_version fp (some d) a = .ok [] ∨
      check_number_version fp (some d) a =
        .error (.compilerVersion fp d a)) ∧
    (d.1 < a.1 →
      check_number_version fp (some d) a =
        .error (.compilerVersion fp d a)) := by
  unfold check_number_version
  dsimp only
  by_cases hc : d.1 = a.1 ∧ (d.2.1 < a.2.1 ∨ (d.2.1 = a.2.1 ∧ d.2.2 ≤ a.2.2))
  · rw [if_pos hc]
    exact ⟨⟨fun _ => hc, fun _ => rfl⟩, Or.inl rfl,
      fun hlt => absurd hc.1 (by omega)⟩
  · rw [if_neg hc]
    exact ⟨⟨fun he => by simp at he, fun hcc => absurd hcc hc⟩,
      Or.inr rfl, fun _ => rfl⟩

theorem check_number_version_same_major_witness :
    check_number_version "f.circom" (some (1, 0, 0)) (2, 1, 5) =
      .error (.compilerVersion "f.circom" (1, 0, 0) (2, 1, 5)) :=
  (check_number_version_same_major "f.circom" (1, 0, 0) (2, 1, 5)).2.2
    (by decide)

/-- C3 (counterexample): `normalize_path` is not idempotent — a `..` with
no parent pops the root marker (`normalize_path "../x" = "x"`), and a
second application re-roots the result to `"/x"`. -/
theorem normalize_path_idempotent_counterexample :
    normalize_path (normalize_path "../x") ≠ normalize_path "../x" := by
  decide

/-- C3 (amended): normalization stabilizes only from the second
application on: `normalize_path ∘ normalize_path` is idempotent, and the
concrete behavior is `normalize_path "/a/./b/../c" = "/a/c"` while
`normalize_path "../x"` drops the leading `..` together with the root
marker, yielding the unrooted `"x"` (re-rooted to `"/x"` by a second
application). -/
theorem normalize_path_idempotent_amended :
    (∀ p : String, normalize_path (normalize_path (normalize_path p)) =
      normalize_path (normalize_path p)) ∧
    normalize_path "/a/./b/../c" = "/a/c" ∧
    normalize_path "../x" = "x" ∧
    normalize_path (normalize_path "../x") = "/x" :=
  ⟨normalize_path_iterate_fixed, by decide, by decide, by decide⟩

/-- C5 (counterexample): on the spec's own example the newline inside the
block comment (byte 6) is *not* preserved — every byte of a recorded
span, newlines included, is replaced by a space. -/
theorem preprocess_newline_counterexample :
    preprocess exBytes 0 = .ok exMasked ∧
    exBytes[6]? = some 10 ∧ exMasked[6]? = some 32 := by
  refine ⟨?_, by decide, by decide⟩
  show preprocess exBytes 0 = .ok exMasked
  simp [preprocess, exBytes, scanComments, skipLine]
  decide

/-- C5 (amended): when every block comment is terminated, `preprocess`
returns a buffer of identical length in which every byte inside a
recorded comment span — including newlines inside block comments — is
replaced by a space, and every byte outside the spans (such as the
newline terminating a line comment, which lies outside its recorded
span) is preserved. -/
theorem preprocess_mask_spec (bytes : List Nat) (fid : Nat)
    (out : List Nat) (h : preprocess bytes fid = .ok out) :
    out.length = bytes.length ∧
    ∀ i : Nat, out[i]? = (bytes[i]?).map
      (fun b => if inSpan (scanComments bytes 0 0 0 []).1 i then 32
        else b) := by
  unfold preprocess at h
  by_cases hs : (scanComments bytes 0 0 0 []).2.1 = 2
  · rw [if_pos hs] at h
    simp at h
  · rw [if_neg hs] at h
    injection h with h
    subst h
    constructor
    · simp
    · intro i
      rw [List.getElem?_map, List.getElem?_enum]
      cases bytes[i]? <;> simp

theorem preprocess_mask_spec_witness :
    exMasked.length = exBytes.length ∧
    ∀ i : Nat, exMasked[i]? = (exBytes[i]?).map
      (fun b => if inSpan (scanComments exBytes 0 0 0 []).1 i then 32
        else b) := by
  apply preprocess_mask_spec exBytes 0 exMasked
  simp [preprocess, exBytes, scanComments, skipLine]
  decide

/-- C6: for the diamond include graph (root includes `a` and `b`, each of
which includes `c`; `c` uses the custom-gates feature; `a` and `b` do not
declare the pragma), `get_problematic_paths` returns exactly two
violation chains — one through `a` and one through `b` — not one chain
and not infinitely many. -/
theorem diamond_exactly_two_chains :
    diamondGraph.get_problematic_paths =
      [["/c.circom", "/b.circom"], ["/c.circom", "/a.circom"]] := by
  rw [get_problematic_paths_eq_fuel]
  decide

/-- C7: for every `IncludesGraph` the traversal terminates with a finite
chain list — every reported chain grows the incoming path by at most the
number of graph edges not yet on the current path, plus one — and on the
cyclic graph `a ⇄ b` it returns exactly the three finite chains. -/
theorem traverse_terminates_bounded :
    (∀ (g : IncludesGraph) (frm : Nat) (path : List String)
      (T : Finset (Nat × Nat)) (c : List String),
      c ∈ g.traverse frm path T →
      c.length ≤ path.length + (edgeFinset g \ T).card + 1) ∧
    cyclicGraph.get_problematic_paths =
      [["/a.circom"], ["/a.circom", "/b.circom"],
       ["/a.circom", "/b.circom", "/a.circom"]] := by
  constructor
  · intro g frm path T c hc
    rw [traverse_eq_traverseFuel g ((edgeFinset g \ T).card + 1) frm path T
      (by omega)] at hc
    have := traverseFuel_chain_length g _ frm path T c hc
    omega
  · rw [get_problematic_paths_eq_fuel]
    decide

theorem traverse_terminates_bounded_witness :
    (["/a.circom"] : List String).length ≤
      ([] : List String).length +
        (edgeFinset cyclicGraph \ (∅ : Finset (Nat × Nat))).card + 1 := by
  apply traverse_terminates_bounded.1 cyclicGraph 0 [] ∅
  rw [traverse_eq_traverseFuel cyclicGraph
    ((edgeFinset cyclicGraph \ (∅ : Finset (Nat × Nat))).card + 1) 0 []
    ∅ (by omega)]
  decide

/-- C8: across any sequence of FileStack operations, `take_next` never
yields the same normalized path twice — duplicates pushed via duplicate
includes are silently discarded at pop time — and the visited set only
grows, with every yielded path marked visited when popped. -/
theorem take_next_never_repeats (fs : FileStack) (ops : List FSOp) :
    (runOps fs ops).2.Nodup ∧
    (∀ q ∈ fs.black_paths, q ∈ (runOps fs ops).1.black_paths) ∧
    (∀ p ∈ (runOps fs ops).2,
      p ∉ fs.black_paths ∧ p ∈ (runOps fs ops).1.black_paths) :=
  ⟨(runOps_spec ops fs).2.2, (runOps_spec ops fs).1, (runOps_spec ops fs).2.1⟩

theorem take_next_never_repeats_witness :
    (runOps ⟨"", [], ["/a.circom", "/a.circom"]⟩
      [FSOp.takeNext, FSOp.takeNext]).2.Nodup ∧
    "/a.circom" ∈ (runOps ⟨"", [], ["/a.circom", "/a.circom"]⟩
      [FSOp.takeNext, FSOp.takeNext]).1.black_paths := by
  have h := take_next_never_repeats ⟨"", [], ["/a.circom", "/a.circom"]⟩
    [FSOp.takeNext, FSOp.takeNext]
  exact ⟨h.1, (h.2.2 "/a.circom" (by decide)).2⟩

/-- C9: `add_include` searches `current_location :: libraries` in caller
order, joining each candidate with the include name and canonicalizing;
the first candidate whose canonical form is a key of the file map wins
(current directory first, then the libraries in order), and exhaustion of
every candidate yields `IncludeNotFound` carrying the name. -/
theorem add_include_first_match (fs : FileStack) (name : String)
    (libraries : List String) (fm : List (String × String)) :
    FileStack.add_include fs name libraries fm =
      match (fs.current_location :: libraries).find? (fun lib =>
          containsKey fm (normalize_path (clean (pushPath lib name)))) with
      | some lib =>
          .ok (normalize_path (clean (pushPath lib name)),
            if normalize_path (clean (pushPath lib name)) ∈ fs.black_paths
            then fs
            else { fs with stack :=
              normalize_path (clean (pushPath lib name)) :: fs.stack })
      | none => .error (.withMessage .IncludeNotFound name) :=
  addIncludeGo_find fs name fm _

/-- `add_node` appends exactly one node and roots it iff the usage flag
is set. -/
theorem add_node_fields (g : IncludesGraph) (p : String) (pr use : Bool) :
    (g.add_node p pr use).nodes = g.nodes ++ [⟨p, pr⟩] ∧
    (g.add_node p pr use).custom_gates_nodes =
      g.custom_gates_nodes ++ (if use then [g.nodes.length] else []) :=
  ⟨rfl, rfl⟩

/-- C1: when the driver registers a successfully parsed file in the
includes graph, the stored node's pragma field equals the parse result's
declares-pragma flag (`custom_gates`), and the node is recorded as a
traversal root iff the uses-feature flag (`custom_gates_declared`) is
set. -/
theorem driver_add_node_wiring {A : Type} (ext : Externals A)
    (version : String) (libs extlibs : List String)
    (fm : List (String × String)) (st : RunState) (crr : String)
    (st₂ : RunState) (found : Bool) (path src csf : String)
    (reps : List Report) (program : Program)
    (hff : find_file crr extlibs fm = (found, path, src, csf, reps))
    (hparse : ext.parse_file src st.file_library.length = .ok program)
    (h : processFile ext version libs extlibs fm st crr = .ok st₂) :
    st₂.includes_graph.nodes =
      st.includes_graph.nodes ++ [⟨csf, program.custom_gates⟩] ∧
    st₂.includes_graph.custom_gates_nodes =
      st.includes_graph.custom_gates_nodes ++
        (if program.custom_gates_declared then
          [st.includes_graph.nodes.length] else []) := by
  unfold processFile at h
  rw [hff] at h
  dsimp only at h
  by_cases hfound : found = false
  · rw [if_pos hfound] at h
    simp at h
  · rw [if_neg hfound] at h
    rw [hparse] at h
    dsimp only at h
    rcases hpi : processIncludes libs fm program.includes st.file_stack
        (st.includes_graph.add_node csf program.custom_gates
          program.custom_gates_declared) with e | ⟨fs', g'⟩
    · rw [hpi] at h
      simp at h
    · rw [hpi] at h
      dsimp only at h
      obtain ⟨_, _, hn, hc⟩ := processIncludes_state libs fm _ _ _ _ _ hpi
      rcases hver : check_number_version path program.compiler_version
          (parse_number_version version) with e | ws
      · rw [hver] at h
        simp at h
      · rw [hver] at h
        dsimp only at h
        have hfin : st₂.includes_graph = g' → _ := fun hg =>
          And.intro
            (hg ▸ hn.trans
              (add_node_fields st.includes_graph csf program.custom_gates
                program.custom_gates_declared).1)
            (hg ▸ hc.trans
              (add_node_fields st.includes_graph csf program.custom_gates
                program.custom_gates_declared).2)
        by_cases hcg : program.custom_gates = true
        · rw [if_pos hcg] at h
          rcases hcgv : check_custom_gates_version path
              program.compiler_version (parse_number_version version) with
              e | u
          · rw [hcgv] at h
            simp at h
          · rw [hcgv] at h
            injection h with h1
            subst h1
            exact hfin rfl
        · rw [if_neg hcg] at h
          injection h with h1
          subst h1
          exact hfin rfl

theorem driver_add_node_wiring_witness :
    processFile ext4 "2.1.5" [] [""] files4 st0 "/main.circom" =
      .ok st_main ∧
    st_main.includes_graph.nodes =
      st0.includes_graph.nodes ++
        [⟨"/main.circom", prog_main.custom_gates⟩] ∧
    st_main.includes_graph.custom_gates_nodes =
      st0.includes_graph.custom_gates_nodes ++
        (if prog_main.custom_gates_declared then
          [st0.includes_graph.nodes.length] else []) := by
  have h : processFile ext4 "2.1.5" [] [""] files4 st0 "/main.circom" =
      .ok st_main := by decide
  have hr := driver_add_node_wiring ext4 "2.1.5" [] [""] files4 st0
    "/main.circom" st_main true "/main.circom" "srcmain" "/main.circom"
    [] prog_main (by decide) (by decide) h
  exact ⟨h, hr.1, hr.2⟩

/-- C4 (counterexample): the spec says warnings collected before an
in-loop fatal abort are returned alongside the fatal diagnostics.  In
this two-file run the entry file's missing-version-pragma warning is
collected (the variant whose second file parses fine returns it), yet
when the second file fails to parse the run returns only the parse
error — the warning is discarded. -/
theorem runParser_warnings_counterexample :
    runParser ext4 "/main.circom" "2.1.5" [] files4 =
      .error ([("/main.circom", "srcmain"), ("/second.circom", "srcsecond")],
        [.errorMsg "unexpected token" .IllegalExpression]) ∧
    runParser ext4ok "/main.circom" "2.1.5" [] files4 =
      .ok (0, [.versionWarning "/main.circom" (2, 1, 5)]) := by
  constructor
  · show runLoop ext4 "2.1.5" [] [""] files4 st0 = _
    rw [runLoop_eq_fuel ext4 "2.1.5" [] [""] files4 5 st0 (by decide)]
    decide
  · show runLoop ext4ok "2.1.5" [] [""] files4 st0 = _
    rw [runLoop_eq_fuel ext4ok "2.1.5" [] [""] files4 5 st0 (by decide)]
    decide

/-- C4 (amended): a fatal error inside the per-file driver loop returns
only that failure's diagnostics — the accumulated warnings are discarded
(the error result is unchanged when the accumulated warnings are
replaced) — whereas the post-loop no-main-component failure does return
the collected warnings alongside the fatal report. -/
theorem processFile_error_drops_warnings {A : Type} (ext : Externals A)
    (version : String) (libs extlibs : List String)
    (fm : List (String × String)) (st : RunState) (crr : String)
    (w : List Report) (l : List (String × String)) (r : List Report) :
    (processFile ext version libs extlibs fm st crr = .error (l, r) →
      processFile ext version libs extlibs fm { st with warnings := w }
        crr = .error (l, r)) ∧
    (st.main_components.isEmpty = true →
      postLoop ext st = .error (st.file_library,
        st.warnings ++ [.atLocation .NoMainFoundInProject 0 0 0])) := by
  constructor
  · intro h
    unfold processFile at h ⊢
    dsimp only at h ⊢
    generalize find_file crr extlibs fm = ff at h ⊢
    obtain ⟨found, path, src, csf, reps⟩ := ff
    dsimp only at h ⊢
    by_cases hfound : found = false
    · rw [if_pos hfound] at h ⊢
      exact h
    · rw [if_neg hfound] at h ⊢
      generalize ext.parse_file src st.file_library.length = pres at h ⊢
      rcases pres with e | program
      · exact h
      · dsimp only at h ⊢
        generalize processIncludes libs fm program.includes st.file_stack
          (st.includes_graph.add_node csf program.custom_gates
            program.custom_gates_declared) = ires at h ⊢
        rcases ires with e | ⟨fs', g'⟩
        · exact h
        · dsimp only at h ⊢
          generalize check_number_version path program.compiler_version
            (parse_number_version version) = vres at h ⊢
          rcases vres with e | ws
          · exact h
          · dsimp only at h ⊢
            by_cases hcg : program.custom_gates = true
            · rw [if_pos hcg] at h ⊢
              generalize check_custom_gates_version path
                program.compiler_version (parse_number_version version) =
                cres at h ⊢
              rcases cres with e | u
              · exact h
              · simp at h
            · rw [if_neg hcg] at h
              simp at h
  · intro hm
    unfold postLoop
    rw [if_pos hm]

theorem processFile_error_drops_warnings_witness :
    processFile ext4 "2.1.5" [] [""] files4
      { st_main with warnings := [] } "/second.circom" =
      .error ([("/main.circom", "srcmain"), ("/second.circom", "srcsecond")],
        [.errorMsg "unexpected token" .IllegalExpression]) :=
  (processFile_error_drops_warnings ext4 "2.1.5" [] [""] files4 st_main
    "/second.circom" [] _ _).1 (by decide)

/-- Every index stored in the adjacency map refers to an existing node. -/
def graphWF (g : IncludesGraph) : Prop :=
  ∀ pr ∈ g.adjacency, ∀ i ∈ pr.2, i < g.nodes.length

instance (g : IncludesGraph) : Decidable (graphWF g) := by
  unfold graphWF
  exact inferInstance

theorem adjPush_mem (adj : List (String × List Nat)) (key : String)
    (idx : Nat) : ∀ pr ∈ adjPush adj key idx,
    pr ∈ adj ∨ (∃ pr' ∈ adj, pr = (pr'.1, pr'.2 ++ [idx])) ∨
      pr = (key, [idx]) := by
  intro pr hpr
  unfold adjPush at hpr
  by_cases ha : adj.any (fun p => p.1 == key)
  · rw [if_pos ha] at hpr
    obtain ⟨pr', hpr', heq⟩ := List.mem_map.mp hpr
    by_cases hk : (pr'.1 == key) = true
    · rw [if_pos hk] at heq
      exact Or.inr (Or.inl ⟨pr', hpr', heq.symm⟩)
    · rw [if_neg hk] at heq
      exact Or.inl (heq ▸ hpr')
  · rw [if_neg ha] at hpr
    rcases List.mem_append.mp hpr with h | h
    · exact Or.inl h
    · simp at h
      exact Or.inr (Or.inr h)

theorem add_node_wf (g : IncludesGraph) (p : String) (pr use : Bool)
    (h : graphWF g) : graphWF (g.add_node p pr use) := by
  intro e he i hi
  have := h e he i hi
  simp [IncludesGraph.add_node]
  omega

theorem add_edge_wf (g : IncludesGraph) (p : String)
    (hne : g.nodes ≠ []) (h : graphWF g) : graphWF (g.add_edge p) := by
  intro e he i hi
  have hlen : 0 < g.nodes.length := List.length_pos.mpr hne
  show i < g.nodes.length
  rcases adjPush_mem g.adjacency (clean (normalize_path p))
      (g.nodes.length - 1) e he with h1 | ⟨pr', hpr', heq⟩ | h1
  · exact h e h1 i hi
  · rw [heq] at hi
    rcases List.mem_append.mp hi with hi' | hi'
    · exact h pr' hpr' i hi'
    · simp at hi'
      omega
  · rw [h1] at hi
    simp at hi
    omega

theorem processIncludes_wf (libs : List String)
    (fm : List (String × String)) :
    ∀ (incs : List String) (fs : FileStack) (g : IncludesGraph)
      (fs' : FileStack) (g' : IncludesGraph),
    processIncludes libs fm incs fs g = .ok (fs', g') →
    g.nodes ≠ [] → graphWF g → graphWF g' := by
  intro incs
  induction incs with
  | nil =>
    intro fs g fs' g' h hne hwf
    simp only [processIncludes] at h
    injection h with h1
    injection h1 with h1 h2
    subst h2
    exact hwf
  | cons inc rest ih =>
    intro fs g fs' g' h hne hwf
    unfold processIncludes at h
    rcases hai : fs.add_include inc libs fm with e | ⟨pi, fs₁⟩
    · rw [hai] at h
      simp at h
    · rw [hai] at h
      dsimp only at h
      apply ih _ _ _ _ h
      · rw [(add_edge_nodes g pi).1]
        exact hne
      · exact add_edge_wf g pi hne hwf

/-- C10: `add_edge` computes the includer's index as `nodes.len() - 1`,
which would underflow on an empty graph; in every driver iteration
`add_node` runs before any `add_edge`, so each edge is recorded into a
nonempty graph and every index stored in the adjacency map refers to an
existing node. -/
theorem add_edge_index_safe {A : Type} (ext : Externals A)
    (version : String) (libs extlibs : List String)
    (fm : List (String × String)) (st : RunState) (crr : String)
    (st₂ : RunState)
    (h : processFile ext version libs extlibs fm st crr = .ok st₂)
    (hwf : graphWF st.includes_graph) :
    graphWF st₂.includes_graph ∧ st₂.includes_graph.nodes ≠ [] := by
  unfold processFile at h
  rcases hff : find_file crr extlibs fm with ⟨found, path, src, csf, reps⟩
  rw [hff] at h
  dsimp only at h
  by_cases hfound : found = false
  · rw [if_pos hfound] at h
    simp at h
  · rw [if_neg hfound] at h
    rcases hparse : ext.parse_file src st.file_library.length with
        e | program
    · rw [hparse] at h
      simp at h
    · rw [hparse] at h
      dsimp only at h
      rcases hpi : processIncludes libs fm program.includes st.file_stack
          (st.includes_graph.add_node csf program.custom_gates
            program.custom_gates_declared) with e | ⟨fs', g'⟩
      · rw [hpi] at h
        simp at h
      · rw [hpi] at h
        dsimp only at h
        have hne : (st.includes_graph.add_node csf program.custom_gates
            program.custom_gates_declared).nodes ≠ [] := by
          simp [IncludesGraph.add_node]
        have hwf' := processIncludes_wf libs fm _ _ _ _ _ hpi hne
          (add_node_wf _ _ _ _ hwf)
        obtain ⟨_, _, hn, _⟩ := processIncludes_state libs fm _ _ _ _ _ hpi
        have hgne : g'.nodes ≠ [] := by
          rw [hn]
          exact hne
        rcases hver : check_number_version path program.compiler_version
            (parse_number_version version) with e | ws
        · rw [hver] at h
          simp at h
        · rw [hver] at h
          dsimp only at h
          by_cases hcg : program.custom_gates = true
          · rw [if_pos hcg] at h
            rcases hcgv : check_custom_gates_version path
                program.compiler_version (parse_number_version version)
                with e | u
            · rw [hcgv] at h
              simp at h
            · rw [hcgv] at h
              injection h with h1
              subst h1
              exact ⟨hwf', hgne⟩
          · rw [if_neg hcg] at h
            injection h with h1
            subst h1
            exact ⟨hwf', hgne⟩

theorem add_edge_index_safe_witness :
    graphWF st_main.includes_graph ∧
    st_main.includes_graph.nodes ≠ [] :=
  add_edge_index_safe ext4 "2.1.5" [] [""] files4 st0 "/main.circom"
    st_main (by decide) (by decide)

end ParserWasm
